import Mathlib

/-!
Verification development for the calculator widget (`src/src/Calculator.tsx`).

The calculator engine is shallowly embedded: every handler of the React
component becomes a pure Lean function on an explicit machine state, and the
JavaScript value-level operations it uses (`String()`, `Number()`, string
concatenation, the formatting regex of `toLocaleString`, `Math.trunc`,
`Number.prototype.toString(16)`, `toUpperCase`) are modelled as executable
Lean functions.

JavaScript numbers are modelled as exact fractions (`Frac`), together with
the `NaN` and `Infinity` sentinels (`JsNum`).  On every value that actually
decides a claim below, binary64 arithmetic is exact, so the exact model
agrees with the JavaScript semantics; values for which binary64 rounding
matters are discussed claim by claim and are never hidden behind a theorem.
-/

namespace CalcApp

/-- Digits of `n` in base `b`, least significant first.  Fuel-based structural
recursion so that concrete values reduce inside the kernel; `n` itself is
always enough fuel because a positive number has at most `n` digits. -/
def digitsRevAux (b : Nat) : Nat → Nat → List Nat
  | 0, _ => []
  | f+1, n => if n = 0 then [] else n % b :: digitsRevAux b f (n / b)

/-- Digits of `n` in base `b`, least significant first. -/
def digitsRev (b n : Nat) : List Nat := digitsRevAux b (n + 1) n

/-- Base-`b` digit characters of `n`, most significant first; `0` prints as
`"0"`.  Models the digit production of JS number printing (lowercase hex
digits, as in `Number.prototype.toString(16)`). -/
def natBaseChars (b n : Nat) : List Char :=
  if n = 0 then ['0'] else ((digitsRev b n).map Nat.digitChar).reverse

/-- Unnormalized exact fraction: the model of a finite JS number.  All
constructed values have a positive denominator.  Fractions are never compared
structurally, so normalization is unnecessary. -/
structure Frac where
  n : Int
  d : Nat
deriving Repr

/-- The fraction `z / 1`. -/
def Frac.ofInt (z : Int) : Frac := ⟨z, 1⟩

/-- Exact negation (JS negation of a finite double is exact). -/
def Frac.neg (x : Frac) : Frac := ⟨-x.n, x.d⟩

/-- Exact sum of two fractions. -/
def Frac.add (x y : Frac) : Frac := ⟨x.n * y.d + y.n * x.d, x.d * y.d⟩

/-- Exact product of two fractions. -/
def Frac.mul (x y : Frac) : Frac := ⟨x.n * y.n, x.d * y.d⟩

/-- Exact quotient; callers guarantee `y` is nonzero. -/
def Frac.div (x y : Frac) : Frac :=
  if y.n < 0 then ⟨-(x.n * y.d), x.d * y.n.natAbs⟩ else ⟨x.n * y.d, x.d * y.n.natAbs⟩

/-- Value-level zero test. -/
def Frac.isZero (x : Frac) : Bool := x.n == 0

/-- Value-level negativity test (denominators are positive). -/
def Frac.isNeg (x : Frac) : Bool := x.n < 0

/-- Whether the fraction is an integer value. -/
def Frac.isInt (x : Frac) : Bool := x.n.natAbs % x.d == 0

/-- Truncation toward zero, as in JS `Math.trunc`. -/
def Frac.trunc (x : Frac) : Int :=
  if x.n < 0 then -((x.n.natAbs / x.d : Nat) : Int) else ((x.n.natAbs / x.d : Nat) : Int)

/-- A JS number: a finite (exactly represented) value, `NaN`, or a signed
infinity (`inf true` is `-Infinity`). -/
inductive JsNum
  | fin (x : Frac)
  | nan
  | inf (neg : Bool)
deriving Repr

/-- JS addition on numbers. -/
def jsAdd : JsNum → JsNum → JsNum
  | .nan, _ => .nan
  | _, .nan => .nan
  | .inf b, .inf c => if b = c then .inf b else .nan
  | .inf b, .fin _ => .inf b
  | .fin _, .inf c => .inf c
  | .fin a, .fin b => .fin (a.add b)

/-- JS negation on numbers. -/
def jsNeg : JsNum → JsNum
  | .fin a => .fin a.neg
  | .nan => .nan
  | .inf b => .inf (!b)

/-- JS subtraction on numbers. -/
def jsSub (a b : JsNum) : JsNum := jsAdd a (jsNeg b)

/-- JS multiplication on numbers. -/
def jsMul : JsNum → JsNum → JsNum
  | .nan, _ => .nan
  | _, .nan => .nan
  | .inf b, .inf c => .inf (b != c)
  | .inf b, .fin q => if q.isZero then .nan else .inf (b != q.isNeg)
  | .fin q, .inf b => if q.isZero then .nan else .inf (b != q.isNeg)
  | .fin a, .fin b => .fin (a.mul b)

/-- JS division on numbers (`x / 0` is a signed infinity, `0 / 0` is `NaN`). -/
def jsDiv : JsNum → JsNum → JsNum
  | .nan, _ => .nan
  | _, .nan => .nan
  | .inf _, .inf _ => .nan
  | .inf b, .fin q => .inf (b != q.isNeg)
  | .fin _, .inf _ => .fin (Frac.ofInt 0)
  | .fin a, .fin b =>
    if b.isZero then (if a.isZero then .nan else .inf a.isNeg) else .fin (a.div b)

/-- Models the JS test `x % 1 === 0` (integer test; false on `NaN`/infinity). -/
def jsIsInt : JsNum → Bool
  | .fin x => x.isInt
  | _ => false

/-- `Math.trunc`. -/
def jsTrunc : JsNum → JsNum
  | .fin x => .fin (Frac.ofInt x.trunc)
  | .nan => .nan
  | .inf b => .inf b

/-- Length of the maximal digit prefix of a character list. -/
def digitRun : List Char → Nat
  | [] => 0
  | c :: t => if c.isDigit then digitRun t + 1 else 0

/-- The lookahead `(?=(?:\d\x7b3\x7d)+(?:\.|$))` of the `toLocaleString`
regex, evaluated at the position just after a matched digit: it succeeds
exactly when the following maximal digit run has positive length divisible
by three and is followed by a dot or the end of the string. -/
def groupLookahead (cs : List Char) : Bool :=
  let m := digitRun cs
  decide (3 ≤ m) && m % 3 == 0 &&
    (match cs.drop m with
     | [] => true
     | c :: _ => c == '.')

/-- The global replacement performed by
`String(num).replace(/(?<!\..*)(\d)(?=(?:\d\x7b3\x7d)+(?:\.|$))/g, "$1 ")`:
a digit gets a space appended when no dot occurs anywhere before it
(`seenDot` tracks the negative lookbehind `(?<!\..*)`) and the lookahead
above succeeds on the rest of the string. -/
def fmtGo : Bool → List Char → List Char
  | _, [] => []
  | seenDot, c :: rest =>
    if c.isDigit && !seenDot && groupLookahead rest then
      c :: ' ' :: fmtGo seenDot rest
    else
      c :: fmtGo (seenDot || c == '.') rest

/-- `toLocaleString` of `Calculator.tsx` (source line 48): inserts a thin
space every three digits left of the decimal point.  The source converts its
`number | string` argument with `String()` first; call sites below pass the
already-converted string. -/
def toLocaleString (s : String) : String := ⟨fmtGo false s.data⟩

/-- `removeSpaces` of `Calculator.tsx` (source line 54): strips every `\s`
character.  Modelled with `Char.isWhitespace`; on the strings this program
produces (digits, signs, dots, ASCII spaces, letters and the error message)
the two whitespace classes agree. -/
def removeSpaces (s : String) : String := ⟨s.data.filter (fun c => !c.isWhitespace)⟩

/-- JS `String.prototype.includes(".")`, used by the digit and decimal
handlers. -/
def hasDot (s : String) : Bool := s.data.any (· == '.')

/-- All characters are decimal digits. -/
def allDigits (cs : List Char) : Bool := cs.all (·.isDigit)

/-- Numeric value of a list of decimal digit characters. -/
def natOfDigits (cs : List Char) : Nat :=
  cs.foldl (fun a c => 10 * a + (c.toNat - 48)) 0

/-- Split a character list at its first `'.'`; returns the prefix and, when a
dot is present, the suffix after it. -/
def splitDot : List Char → List Char × Option (List Char)
  | [] => ([], none)
  | c :: t =>
    if c = '.' then ([], some t)
    else
      let p := splitDot t
      (c :: p.1, p.2)

/-- JS `Number()` on an unsigned, whitespace-free string: `"Infinity"`, or a
decimal literal `digits`, `digits.` , `.digits`, `digits.digits`; anything
else (including the empty string) is `NaN`.  Exponent and hex literals never
occur in this program's strings and are not modelled. -/
def jsNumberCore (cs : List Char) : JsNum :=
  if cs = "Infinity".data then .inf false
  else
    match splitDot cs with
    | (a, none) =>
      if a ≠ [] ∧ allDigits a then .fin (Frac.ofInt (natOfDigits a)) else .nan
    | (a, some b) =>
      if (a ≠ [] ∨ b ≠ []) ∧ allDigits a ∧ allDigits b then
        .fin ⟨(natOfDigits a) * 10 ^ b.length + natOfDigits b, 10 ^ b.length⟩
      else .nan

/-- JS `Number()` on a whitespace-free string: empty string is `0`; a leading
sign is applied to the unsigned parse. -/
def jsNumber (s : String) : JsNum :=
  match s.data with
  | [] => .fin (Frac.ofInt 0)
  | c :: t =>
    if c = '-' then jsNeg (jsNumberCore t)
    else if c = '+' then jsNumberCore t
    else jsNumberCore (c :: t)

/-- Strip trailing `'0'` characters (used for the fractional part of decimal
printing, mirroring how JS never prints trailing fractional zeros). -/
def trimZerosRight (cs : List Char) : List Char :=
  (cs.reverse.dropWhile (· == '0')).reverse

/-- Left-pad with `'0'` to length `k`. -/
def padZerosTo (k : Nat) (cs : List Char) : List Char :=
  List.replicate (k - cs.length) '0' ++ cs

/-- The fractional digits of `|x| * 10 ^ k` (viewed `k` digits from the
right), padded then stripped of trailing zeros. -/
def fracPart (x : Frac) (k : Nat) : List Char :=
  let fr := x.n.natAbs * 10 ^ k / x.d % 10 ^ k
  if fr = 0 then [] else trimZerosRight (padZerosTo k (natBaseChars 10 fr))

def fracDecExact (x : Frac) (k : Nat) : List Char :=
  natBaseChars 10 (x.n.natAbs * 10 ^ k / x.d / 10 ^ k) ++
    (if fracPart x k = [] then [] else '.' :: fracPart x k)

/-- The (documented, claim-irrelevant) approximation branch for values with
no finite decimal expansion: 17 truncated fractional digits. -/
def fracDecFallback (x : Frac) : List Char :=
  natBaseChars 10 (x.n.natAbs / x.d) ++ '.' ::
    padZerosTo 17 (natBaseChars 10 (x.n.natAbs % x.d * 10 ^ 17 / x.d))

/-- Decimal printing of a nonzero finite value `x` (sign already handled by
the caller): find `k` with `x.d ∣ |x.n| * 10 ^ k`, so that
`|x| * 10 ^ k` is the natural number `N`, and print `N` with a decimal point
`k` digits from the right, trailing fractional zeros removed.  The result
only depends on the value of the fraction, not its representation.  Values
whose denominator is not of the form `2^a * 5^b` have no finite decimal
expansion; JS prints a 17-significant-digit shortest round-trip
approximation for them, which this model replaces by the expansion truncated
after 17 fractional digits.  No theorem below depends on that branch,
nor on values outside JS's plain-decimal printing range. -/
def fracDecChars (x : Frac) : List Char :=
  match (List.range 64).find? (fun k => x.n.natAbs * 10 ^ k % x.d == 0) with
  | some k => fracDecExact x k
  | none => fracDecFallback x

/-- JS `String()` on a number. -/
def jsNumToString : JsNum → String
  | .nan => "NaN"
  | .inf true => "-Infinity"
  | .inf false => "Infinity"
  | .fin x =>
    if x.isZero then "0"
    else if x.isNeg then ⟨'-' :: fracDecChars x⟩ else ⟨fracDecChars x⟩

/-- JS `Number.prototype.toString(16)` on the (always integral, after
`Math.trunc`) values the hex-peek handler produces; lowercase hex digits. -/
def jsHexString : JsNum → String
  | .nan => "NaN"
  | .inf true => "-Infinity"
  | .inf false => "Infinity"
  | .fin x =>
    if x.trunc < 0 then ⟨'-' :: natBaseChars 16 x.trunc.natAbs⟩
    else ⟨natBaseChars 16 x.trunc.natAbs⟩

/-- JS `String.prototype.toUpperCase` (ASCII, which covers every character
this program uppercases). -/
def upperStr (s : String) : String := ⟨s.data.map Char.toUpper⟩

/-- The value of the `num` / `res` fields of the component state
(`CalcState` in the source, typed `number | string`): every assignment in
the source stores either the number literal `0` or a string, so the model
carries exactly those two cases. -/
inductive JVal
  | n0
  | str (s : String)
deriving DecidableEq, Repr

/-- JS `String()` / template-literal conversion of a field value. -/
def JVal.toStr : JVal → String
  | .n0 => "0"
  | .str s => s

/-- JS truthiness of a field value: the number `0` and the empty string are
falsy. -/
def JVal.truthy : JVal → Bool
  | .n0 => false
  | .str s => s ≠ ""

/-- `zeroDivisionError` of `Calculator.tsx` (source line 76). -/
def zeroDivisionError : String := "不能除以 0"

/-- The `calc` state of the component: pending operator `sign`, current
operand `num`, accumulated result `res`. -/
structure CalcState where
  sign : String
  num : JVal
  res : JVal
deriving DecidableEq, Repr

/-- The full widget state: `calc`, the `history` list (most recent first),
and the transient hex-peek display state. -/
structure Machine where
  calcState : CalcState
  history : List String
  isHexView : Bool
  hexDisplay : String
deriving DecidableEq, Repr

/-- The initial state (`useState` initializers, source lines 176-184). -/
def initMachine : Machine :=
  { calcState := { sign := "", num := .n0, res := .n0 }
    history := []
    isHexView := false
    hexDisplay := "0" }

/-- The button alphabet dispatched through `buttonClickHandler`; the hex-peek
press/release pair is modelled separately (`hexPressHandler` /
`hexReleaseHandler`), while `hexBtn` is the `onClick` event of the HEX
button, which also flows through `buttonClickHandler`. -/
inductive Btn
  | digit (d : Fin 10)
  | dot
  | opAdd
  | opSub
  | opMul
  | opDiv
  | eqBtn
  | acBtn
  | invBtn
  | bkspBtn
  | hexBtn
deriving DecidableEq, Repr

/-- `math` of `Calculator.tsx` (source line 60): the four binary operators,
keyed by the operator glyph, defaulting to the second operand. -/
def math (a b : JsNum) (sign : String) : JsNum :=
  if sign = "+" then jsAdd a b
  else if sign = "−" then jsSub a b
  else if sign = "×" then jsMul a b
  else if sign = "÷" then jsDiv a b
  else b

/-- `numClickHandler` (source lines 189-204).  Guarded by the 16-character
cap on the separator-stripped operand; the new operand replaces a lone `0`
when another `0` is typed, re-parses and re-prints through `Number` when the
operand is a dot-free integer, and otherwise concatenates textually; typing
with no pending operator clears `res`. -/
def numClickHandler (d : Fin 10) (m : Machine) : Machine :=
  let value : String := ⟨[Nat.digitChar d.val]⟩
  let numStr := m.calcState.num.toStr
  if (removeSpaces numStr).length < 16 then
    { m with calcState := { m.calcState with
        num := JVal.str
          (if m.calcState.num = JVal.n0 ∧ value = "0" then "0"
           else if jsIsInt (jsNumber (removeSpaces numStr)) ∧ ¬hasDot numStr then
             toLocaleString (jsNumToString (jsNumber (removeSpaces (numStr ++ value))))
           else toLocaleString (numStr ++ value))
        res := if m.calcState.sign = "" then JVal.n0 else m.calcState.res } }
  else m

/-- `comaClickHandler` (source lines 209-215): appends `"."` unless the
operand already contains one. -/
def comaClickHandler (m : Machine) : Machine :=
  { m with calcState := { m.calcState with
      num := if ¬hasDot m.calcState.num.toStr then JVal.str (m.calcState.num.toStr ++ ".") else m.calcState.num } }

/-- `signClickHandler` (source lines 220-244): when an operator is pending
and both operand and result are truthy, folds the pending operation into
`res`; otherwise moves the truthy one of `num` / `res` into `res`.  Either
way the new operator is stored and `num` is cleared to the number `0`. -/
def signClickHandler (sgn : String) (m : Machine) : Machine :=
  if m.calcState.sign ≠ "" ∧ m.calcState.num.truthy ∧ m.calcState.res.truthy then
    let result := math (jsNumber (removeSpaces m.calcState.res.toStr))
      (jsNumber (removeSpaces m.calcState.num.toStr)) m.calcState.sign
    { m with calcState :=
        { sign := sgn
          res := JVal.str (toLocaleString (jsNumToString result))
          num := JVal.n0 } }
  else
    { m with calcState :=
        { sign := sgn
          res := if m.calcState.num.truthy then m.calcState.num else m.calcState.res
          num := JVal.n0 } }

/-- `equalsClickHandler` (source lines 249-277): requires a truthy operator
and operand; the literal operand string `"0"` under `"÷"` produces the
division-by-zero sentinel, anything else evaluates `math`; the expression is
prepended to the history unless the sentinel was produced. -/
def equalsClickHandler (m : Machine) : Machine :=
  if m.calcState.sign ≠ "" ∧ m.calcState.num.truthy then
    let result : String :=
      if m.calcState.num = JVal.str "0" ∧ m.calcState.sign = "÷" then zeroDivisionError
      else toLocaleString (jsNumToString (math (jsNumber (removeSpaces m.calcState.res.toStr))
        (jsNumber (removeSpaces m.calcState.num.toStr)) m.calcState.sign))
    { m with
      calcState := { sign := "", num := JVal.n0, res := JVal.str result }
      history :=
        if result ≠ zeroDivisionError then
          (removeSpaces m.calcState.res.toStr ++ " " ++ m.calcState.sign ++ " " ++
            removeSpaces m.calcState.num.toStr ++ " = " ++ result) :: m.history
        else m.history }
  else m

/-- `invertClickHandler` (source lines 282-288): negates each truthy field
through `Number` and reformats; falsy fields become the number `0`. -/
def invertClickHandler (m : Machine) : Machine :=
  { m with calcState := { m.calcState with
      num :=
        if m.calcState.num.truthy then
          JVal.str (toLocaleString (jsNumToString
            (jsMul (jsNumber (removeSpaces m.calcState.num.toStr)) (.fin (Frac.ofInt (-1))))))
        else JVal.n0
      res :=
        if m.calcState.res.truthy then
          JVal.str (toLocaleString (jsNumToString
            (jsMul (jsNumber (removeSpaces m.calcState.res.toStr)) (.fin (Frac.ofInt (-1))))))
        else JVal.n0 } }

/-- `resetClickHandler` (source lines 293-299): clears `calc` only; the
history and hex-peek state are untouched. -/
def resetClickHandler (m : Machine) : Machine :=
  { m with calcState := { sign := "", num := .n0, res := .n0 } }

/-- `backspaceClickHandler` (source lines 304-312): drops the last character
of the separator-stripped operand; an emptied operand becomes the number
`0`. -/
def backspaceClickHandler (m : Machine) : Machine :=
  if m.calcState.num.truthy ∧ m.calcState.num ≠ JVal.n0 then
    let numStr : String := ⟨(removeSpaces m.calcState.num.toStr).data.dropLast⟩
    { m with calcState := { m.calcState with
        num := if numStr.length = 0 then JVal.n0 else JVal.str (toLocaleString numStr) } }
  else m

/-- `hexPressHandler` (source lines 317-324): renders the truncated integer
of the active value as `"0x"` plus uppercase hex and enters the transient
hex view.  `calc` and `history` are untouched. -/
def hexPressHandler (m : Machine) : Machine :=
  let valueToConvert := jsNumber (removeSpaces
    (if m.calcState.num.truthy then m.calcState.num.toStr else m.calcState.res.toStr))
  { m with
    hexDisplay := "0x" ++ upperStr (jsHexString (jsTrunc valueToConvert))
    isHexView := true }

/-- `hexReleaseHandler` (source lines 329-331). -/
def hexReleaseHandler (m : Machine) : Machine :=
  { m with isHexView := false }

/-- `buttonClickHandler` (source lines 336-365): any button other than AC
pressed while the division-by-zero sentinel is displayed just resets `calc`
(the press is not processed further); otherwise the press is dispatched by
button value, digits going to `numClickHandler` and the HEX click being a
no-op. -/
def press (b : Btn) (m : Machine) : Machine :=
  if m.calcState.res = JVal.str zeroDivisionError ∧ b ≠ Btn.acBtn then resetClickHandler m
  else
    match b with
    | .acBtn => resetClickHandler m
    | .invBtn => invertClickHandler m
    | .bkspBtn => backspaceClickHandler m
    | .eqBtn => equalsClickHandler m
    | .opDiv => signClickHandler "÷" m
    | .opMul => signClickHandler "×" m
    | .opSub => signClickHandler "−" m
    | .opAdd => signClickHandler "+" m
    | .dot => comaClickHandler m
    | .digit d => numClickHandler d m
    | .hexBtn => m

/-- Run a button sequence from the initial state. -/
def run (l : List Btn) : Machine := l.foldl (fun m b => press b m) initMachine

/-- States reachable from the initial state by button presses. -/
def Reachable (m : Machine) : Prop := ∃ l : List Btn, m = run l

/-- The primary line of the `Screen` component (source lines 403-414). -/
def primaryDisplay (m : Machine) : String :=
  if m.isHexView then m.hexDisplay
  else if m.calcState.sign ≠ "" then
    (if m.calcState.num = JVal.n0 then " " else m.calcState.num.toStr)
  else if m.calcState.num.truthy then m.calcState.num.toStr
  else m.calcState.res.toStr

/-! ### Lemmas about the thousands-separator formatter -/

theorem fmtGo_filter (p : Char → Bool) (hp : p ' ' = false) :
    ∀ (b : Bool) (l : List Char), (fmtGo b l).filter p = l.filter p := by
  intro b l
  induction l generalizing b with
  | nil => rfl
  | cons c t ih =>
    by_cases h : (c.isDigit && !b && groupLookahead t) = true
    · simp [fmtGo, h, List.filter_cons, hp, ih]
    · simp [fmtGo, h, List.filter_cons, ih]

theorem fmtGo_count_dot :
    ∀ (b : Bool) (l : List Char), (fmtGo b l).count '.' = l.count '.' := by
  intro b l
  induction l generalizing b with
  | nil => rfl
  | cons c t ih =>
    by_cases h : (c.isDigit && !b && groupLookahead t) = true
    · simp [fmtGo, h, List.count_cons, ih]
    · simp [fmtGo, h, List.count_cons, ih]

theorem fmtGo_mem {c : Char} :
    ∀ {b : Bool} {l : List Char}, c ∈ fmtGo b l → c ∈ l ∨ c = ' ' := by
  intro b l
  induction l generalizing b with
  | nil => intro h; exact absurd h (by simp [fmtGo])
  | cons a t ih =>
    intro hm
    by_cases h : (a.isDigit && !b && groupLookahead t) = true
    · rw [fmtGo, if_pos h] at hm
      simp only [List.mem_cons] at hm
      rcases hm with hm | hm | hm
      · exact Or.inl (by simp [hm])
      · exact Or.inr hm
      · rcases ih hm with h' | h'
        · exact Or.inl (List.mem_cons_of_mem _ h')
        · exact Or.inr h'
    · rw [fmtGo, if_neg h] at hm
      simp only [List.mem_cons] at hm
      rcases hm with hm | hm
      · exact Or.inl (by simp [hm])
      · rcases ih hm with h' | h'
        · exact Or.inl (List.mem_cons_of_mem _ h')
        · exact Or.inr h'

theorem fmtGo_head :
    ∀ (b : Bool) (l : List Char), (fmtGo b l).head? = l.head? := by
  intro b l
  cases l with
  | nil => rfl
  | cons c t =>
    by_cases h : (c.isDigit && !b && groupLookahead t) = true
    · simp [fmtGo, h]
    · simp [fmtGo, h]

theorem fmtGo_ne_nil {b : Bool} {l : List Char} (h : l ≠ []) : fmtGo b l ≠ [] := by
  intro hc
  have := fmtGo_head b l
  rw [hc] at this
  cases l with
  | nil => exact h rfl
  | cons c t => simp at this

/-- The round trip of claim C6: stripping spaces from the formatted string
recovers any whitespace-free input exactly. -/
theorem removeSpaces_toLocaleString (s : String)
    (h : ∀ c ∈ s.data, c.isWhitespace = false) :
    removeSpaces (toLocaleString s) = s := by
  cases s with
  | mk data =>
    show String.mk _ = String.mk data
    congr 1
    show (fmtGo false data).filter (fun c => !c.isWhitespace) = data
    rw [fmtGo_filter (fun c => !c.isWhitespace) (by decide)]
    apply List.filter_eq_self.mpr
    intro c hc
    simp [h c hc]

/-! ### Lemmas about decimal digit printing -/

theorem digitsRevAux_fuel {b : Nat} (hb : 2 ≤ b) :
    ∀ (f₁ f₂ n : Nat), n ≤ f₁ → n ≤ f₂ →
      digitsRevAux b f₁ n = digitsRevAux b f₂ n := by
  intro f₁
  induction f₁ with
  | zero =>
    intro f₂ n h₁ _
    interval_cases n
    cases f₂ <;> simp [digitsRevAux]
  | succ g ih =>
    intro f₂ n h₁ h₂
    by_cases hn : n = 0
    · subst hn; cases f₂ <;> simp [digitsRevAux]
    · have hnpos : 1 ≤ n := Nat.one_le_iff_ne_zero.mpr hn
      obtain ⟨g', rfl⟩ : ∃ g', f₂ = g' + 1 :=
        ⟨f₂ - 1, by omega⟩
      have hdiv : n / b < n := Nat.div_lt_self (by omega) (by omega)
      rw [digitsRevAux, digitsRevAux, if_neg hn, if_neg hn,
        ih g' (n / b) (by omega) (by omega)]

theorem digitsRev_step {m r : Nat} (hm : 1 ≤ m) (hr : r < 10) :
    digitsRev 10 (10 * m + r) = r :: digitsRev 10 m := by
  have hpos : 10 * m + r ≠ 0 := by omega
  rw [digitsRev, digitsRevAux, if_neg hpos]
  have hmod : (10 * m + r) % 10 = r := by omega
  have hdiv : (10 * m + r) / 10 = m := by omega
  rw [hmod, hdiv, digitsRev]
  exact congrArg (List.cons r) (digitsRevAux_fuel (by omega) (10 * m + r) (m + 1) m (by omega) (by omega))

theorem digitsRev_single {d : Nat} (h1 : 1 ≤ d) (h2 : d < 10) :
    digitsRev 10 d = [d] := by
  have hd : d ≠ 0 := by omega
  rw [digitsRev, digitsRevAux, if_neg hd]
  have hmod : d % 10 = d := by omega
  have hdiv : d / 10 = 0 := by omega
  rw [hmod, hdiv]
  cases d with
  | zero => omega
  | succ k => simp [digitsRevAux]

theorem digitsRev_mem_lt {b : Nat} (hb : 2 ≤ b) :
    ∀ {n x : Nat}, x ∈ digitsRev b n → x < b := by
  have aux : ∀ (f : Nat) {n x : Nat}, x ∈ digitsRevAux b f n → x < b := by
    intro f
    induction f with
    | zero => intro n x h; simp [digitsRevAux] at h
    | succ g ih =>
      intro n x h
      by_cases hn : n = 0
      · subst hn; simp [digitsRevAux] at h
      · rw [digitsRevAux, if_neg hn] at h
        rcases List.mem_cons.mp h with h' | h'
        · subst h'; exact Nat.mod_lt _ (by omega)
        · exact ih h'
  intro n x h
  exact aux (n + 1) h

theorem digitChar_isDigit {x : Nat} (h : x < 10) : (Nat.digitChar x).isDigit = true := by
  have : ∀ y : Fin 10, (Nat.digitChar y.val).isDigit = true := by decide
  exact this ⟨x, h⟩

theorem digitChar_toNat {x : Nat} (h : x < 10) : (Nat.digitChar x).toNat - 48 = x := by
  have : ∀ y : Fin 10, (Nat.digitChar y.val).toNat - 48 = y.val := by decide
  exact this ⟨x, h⟩

theorem natBaseChars_isDigit {n : Nat} :
    ∀ c ∈ natBaseChars 10 n, c.isDigit = true := by
  intro c hc
  rw [natBaseChars] at hc
  by_cases hn : n = 0
  · rw [if_pos hn] at hc
    simp at hc
    subst hc; decide
  · rw [if_neg hn] at hc
    rw [List.mem_reverse, List.mem_map] at hc
    obtain ⟨x, hx, rfl⟩ := hc
    exact digitChar_isDigit (digitsRev_mem_lt (by omega) hx)

theorem natBaseChars_ne_nil {b n : Nat} : natBaseChars b n ≠ [] := by
  rw [natBaseChars]
  by_cases hn : n = 0
  · simp [hn]
  · rw [if_neg hn]
    have : digitsRev b n ≠ [] := by
      rw [digitsRev, digitsRevAux, if_neg hn]
      simp
    simpa using this

theorem natBaseChars_step {m d : Nat} (hm : 1 ≤ m) (hd : d < 10) :
    natBaseChars 10 (10 * m + d) = natBaseChars 10 m ++ [Nat.digitChar d] := by
  have h1 : 10 * m + d ≠ 0 := by omega
  have h2 : m ≠ 0 := by omega
  rw [natBaseChars, natBaseChars, if_neg h1, if_neg h2, digitsRev_step hm hd]
  simp

theorem natBaseChars_single {d : Nat} (hd : d < 10) :
    natBaseChars 10 d = [Nat.digitChar d] := by
  by_cases h1 : d = 0
  · subst h1; decide
  · rw [natBaseChars, if_neg h1, digitsRev_single (by omega) hd]
    simp

/-! ### Digit-key lists: their characters and accumulated numeric value -/

/-- Characters produced by a list of digit keys. -/
def digitChars (l : List (Fin 10)) : List Char := l.map (fun d => Nat.digitChar d.val)

/-- Numeric value accumulated by typing the digit keys left to right. -/
def digitsVal (l : List (Fin 10)) : Nat := l.foldl (fun a d => 10 * a + d.val) 0

theorem digitsVal_append (l : List (Fin 10)) (d : Fin 10) :
    digitsVal (l ++ [d]) = 10 * digitsVal l + d.val := by
  simp [digitsVal, List.foldl_append]

theorem digitsVal_foldl_ge (t : List (Fin 10)) :
    ∀ a : Nat, 1 ≤ a → 1 ≤ t.foldl (fun a d => 10 * a + d.val) a := by
  induction t with
  | nil => intro a ha; simpa using ha
  | cons e t ih =>
    intro a ha
    simp only [List.foldl_cons]
    exact ih _ (by omega)

theorem digitsVal_pos {l : List (Fin 10)}
    (hl : l ≠ []) (hh : ∀ e, l.head? = some e → e.val ≠ 0) : 1 ≤ digitsVal l := by
  cases l with
  | nil => exact absurd rfl hl
  | cons e t =>
    have he : e.val ≠ 0 := hh e rfl
    simp only [digitsVal, List.foldl_cons]
    exact digitsVal_foldl_ge t _ (by omega)

theorem natOfDigits_digitChars (l : List (Fin 10)) :
    natOfDigits (digitChars l) = digitsVal l := by
  have aux : ∀ (t : List (Fin 10)) (a : Nat),
      (digitChars t).foldl (fun a c => 10 * a + (c.toNat - 48)) a =
        t.foldl (fun a d => 10 * a + d.val) a := by
    intro t
    induction t with
    | nil => intro a; rfl
    | cons e t ih =>
      intro a
      simp only [digitChars, List.map_cons, List.foldl_cons]
      rw [digitChar_toNat e.isLt]
      exact ih _
  exact aux l 0

theorem natBaseChars_digitsVal {l : List (Fin 10)}
    (hl : l ≠ []) (hh : ∀ e, l.head? = some e → e.val ≠ 0) :
    natBaseChars 10 (digitsVal l) = digitChars l := by
  induction l using List.reverseRecOn with
  | nil => exact absurd rfl hl
  | append_singleton t d ih =>
    by_cases htne : t = []
    · subst htne
      have : digitsVal [d] = d.val := by simp [digitsVal]
      rw [List.nil_append, this, natBaseChars_single d.isLt]
      rfl
    · have hhead : (t ++ [d]).head? = t.head? := by
        cases t with
        | nil => exact absurd rfl htne
        | cons a b => simp
      have hh' : ∀ e, t.head? = some e → e.val ≠ 0 :=
        fun e he => hh e (by rw [hhead]; exact he)
      rw [digitsVal_append, natBaseChars_step (digitsVal_pos htne hh') d.isLt, ih htne hh']
      simp [digitChars]

/-! ### Parsing and printing round trips on digit strings -/

theorem splitDot_no_dot {cs : List Char} (h : ∀ c ∈ cs, c ≠ '.') :
    splitDot cs = (cs, none) := by
  induction cs with
  | nil => rfl
  | cons c t ih =>
    have hc : c ≠ '.' := h c (by simp)
    rw [splitDot, if_neg hc, ih (fun c hc => h c (by simp [hc]))]

theorem allDigits_no_dot {cs : List Char} (h : allDigits cs = true) :
    ∀ c ∈ cs, c ≠ '.' := by
  intro c hc he
  have := (List.all_eq_true.mp h) c hc
  subst he
  simp at this

theorem jsNumberCore_digits {cs : List Char} (hne : cs ≠ []) (h : allDigits cs = true) :
    jsNumberCore cs = .fin (Frac.ofInt (natOfDigits cs)) := by
  have hinf : cs ≠ "Infinity".data := by
    intro he
    rw [he] at h
    exact absurd h (by decide)
  rw [jsNumberCore, if_neg hinf, splitDot_no_dot (allDigits_no_dot h)]
  simp [hne, h]

theorem jsNumber_digits {cs : List Char} (hne : cs ≠ []) (h : allDigits cs = true) :
    jsNumber ⟨cs⟩ = .fin (Frac.ofInt (natOfDigits cs)) := by
  cases cs with
  | nil => exact absurd rfl hne
  | cons c t =>
    have hc : c.isDigit = true := (List.all_eq_true.mp h) c (by simp)
    have hc1 : c ≠ '-' := by intro he; subst he; simp at hc
    have hc2 : c ≠ '+' := by intro he; subst he; simp at hc
    show jsNumber (String.mk (c :: t)) = _
    rw [jsNumber]
    simp only [if_neg hc1, if_neg hc2]
    exact jsNumberCore_digits hne h

theorem jsIsInt_ofInt (z : Int) : jsIsInt (.fin (Frac.ofInt z)) = true := by
  simp [jsIsInt, Frac.isInt, Frac.ofInt, Nat.mod_one]

theorem jsNumToString_ofNat (n : Nat) :
    jsNumToString (.fin (Frac.ofInt (n : Int))) = ⟨natBaseChars 10 n⟩ := by
  by_cases hn : n = 0
  · subst hn; decide
  · have hz : Frac.isZero (Frac.ofInt (n : Int)) = false := by
      simp [Frac.isZero, Frac.ofInt, hn]
    have hneg : Frac.isNeg (Frac.ofInt (n : Int)) = false := by
      simp [Frac.isNeg, Frac.ofInt]
    rw [jsNumToString, hz, hneg]
    simp only [Bool.false_eq_true, if_false]
    congr 1
    have h64 : (64 : Nat) = 63 + 1 := rfl
    have hfind : (List.range 64).find?
        (fun k => (Frac.ofInt (n : Int)).n.natAbs * 10 ^ k % (Frac.ofInt (n : Int)).d == 0) =
        some 0 := by
      rw [h64, List.range_succ_eq_map]
      exact List.find?_cons_of_pos _ (by simp [Frac.ofInt, Nat.mod_one])
    rw [fracDecChars, hfind]
    simp [fracDecExact, fracPart, Frac.ofInt, Nat.mod_one, Nat.div_one, Int.natAbs_ofNat]

theorem isDigit_not_whitespace {c : Char} (h : c.isDigit = true) :
    c.isWhitespace = false := by
  by_contra hne
  have hw : c.isWhitespace = true := by simpa using hne
  simp [Char.isWhitespace] at hw
  rcases hw with ((h1 | h1) | h1) | h1 <;> (subst h1; simp [Char.isDigit] at h)

theorem allDigits_digitChars (l : List (Fin 10)) : allDigits (digitChars l) = true := by
  rw [allDigits, List.all_eq_true]
  intro c hc
  rw [digitChars, List.mem_map] at hc
  obtain ⟨d, _, rfl⟩ := hc
  exact digitChar_isDigit d.isLt

theorem hasDot_toLocaleString_digits {cs : List Char} (h : allDigits cs = true) :
    hasDot (toLocaleString ⟨cs⟩) = false := by
  rw [hasDot]
  rw [List.any_eq_false]
  intro c hc
  rcases fmtGo_mem hc with h' | h'
  · have hd := (List.all_eq_true.mp h) c h'
    simp only [beq_iff_eq]
    intro he
    subst he
    simp at hd
  · subst h'
    decide

theorem removeSpaces_append_digit {cs : List Char} (hdig : allDigits cs = true) (c : Char)
    (hc : c.isWhitespace = false) :
    removeSpaces (toLocaleString ⟨cs⟩ ++ ⟨[c]⟩) = ⟨cs ++ [c]⟩ := by
  have hws : ∀ x ∈ cs, x.isWhitespace = false :=
    fun x hx => isDigit_not_whitespace ((List.all_eq_true.mp hdig) x hx)
  show String.mk _ = String.mk _
  congr 1
  rw [String.data_append]
  show ((fmtGo false cs) ++ [c]).filter (fun c => !c.isWhitespace) = cs ++ [c]
  rw [List.filter_append, fmtGo_filter (fun c => !c.isWhitespace) (by decide)]
  rw [List.filter_eq_self.mpr (fun x hx => by simp [hws x hx]),
    List.filter_eq_self.mpr (fun x hx => by simp at hx; simp [hx, hc])]

/-- One digit press on a state whose operand is a formatted all-digit string:
the handler re-parses, appends the new digit numerically and re-formats. -/
theorem press_digit_on_digits {cs : List Char} (hne : cs ≠ []) (hdig : allDigits cs = true)
    (hlen : cs.length < 16) (d : Fin 10) (hist : List String) (hx : Bool) (hd : String) :
    press (Btn.digit d)
      { calcState := { sign := "", num := JVal.str (toLocaleString ⟨cs⟩), res := JVal.n0 }
        history := hist, isHexView := hx, hexDisplay := hd } =
      { calcState :=
          { sign := ""
            num := JVal.str (toLocaleString
              ⟨natBaseChars 10 (natOfDigits (cs ++ [Nat.digitChar d.val]))⟩)
            res := JVal.n0 }
        history := hist, isHexView := hx, hexDisplay := hd } := by
  have hws : ∀ c ∈ cs, c.isWhitespace = false :=
    fun c hc => isDigit_not_whitespace ((List.all_eq_true.mp hdig) c hc)
  have hrs : removeSpaces (toLocaleString ⟨cs⟩) = ⟨cs⟩ :=
    removeSpaces_toLocaleString _ hws
  have hlen' : (removeSpaces (toLocaleString ⟨cs⟩)).length < 16 := by
    rw [hrs]; exact hlen
  have hparse : jsNumber (removeSpaces (toLocaleString ⟨cs⟩)) =
      .fin (Frac.ofInt (natOfDigits cs)) := by
    rw [hrs]; exact jsNumber_digits hne hdig
  have hdigc : (Nat.digitChar d.val).isDigit = true := digitChar_isDigit d.isLt
  have happ : removeSpaces (toLocaleString ⟨cs⟩ ++ ⟨[Nat.digitChar d.val]⟩) =
      ⟨cs ++ [Nat.digitChar d.val]⟩ :=
    removeSpaces_append_digit hdig _ (isDigit_not_whitespace hdigc)
  have hparse2 : jsNumber (removeSpaces (toLocaleString ⟨cs⟩ ++ ⟨[Nat.digitChar d.val]⟩)) =
      .fin (Frac.ofInt (natOfDigits (cs ++ [Nat.digitChar d.val]))) := by
    rw [happ]
    exact jsNumber_digits (by simp) (by
      rw [allDigits, List.all_eq_true]
      intro c hc
      rcases List.mem_append.mp hc with h' | h'
      · exact (List.all_eq_true.mp hdig) c h'
      · simp at h'; subst h'; exact hdigc)
  rw [press]
  rw [if_neg (by simp)]
  show numClickHandler d _ = _
  rw [numClickHandler]
  simp only [JVal.toStr]
  rw [if_pos hlen']
  rw [if_neg (by rintro ⟨h1, _⟩; exact JVal.noConfusion h1)]
  rw [if_pos ⟨by rw [hparse]; exact jsIsInt_ofInt _,
    by simp [hasDot_toLocaleString_digits hdig]⟩]
  rw [hparse2, jsNumToString_ofNat]
  rfl

/-- Pressing only digits, the first one nonzero: the operand is always the
formatted decimal rendering of the digits typed so far. -/
theorem run_digits (l : List (Fin 10)) (hne : l ≠ [])
    (hh : ∀ e, l.head? = some e → e.val ≠ 0) (hlen : l.length ≤ 16) :
    run (l.map Btn.digit) =
      { calcState :=
          { sign := "", num := JVal.str (toLocaleString ⟨digitChars l⟩), res := JVal.n0 }
        history := [], isHexView := false, hexDisplay := "0" } := by
  induction l using List.reverseRecOn with
  | nil => exact absurd rfl hne
  | append_singleton t d ih =>
    by_cases htne : t = []
    · subst htne
      have hd : d.val ≠ 0 := hh d rfl
      show press (Btn.digit d) initMachine = _
      rw [press, if_neg (by simp [initMachine])]
      show numClickHandler d initMachine = _
      rw [numClickHandler]
      have hv : (⟨[Nat.digitChar d.val]⟩ : String) ≠ "0" := by
        have : ∀ e : Fin 10, e.val ≠ 0 → (String.mk [Nat.digitChar e.val]) ≠ "0" := by decide
        exact this d hd
      simp only [initMachine, JVal.toStr]
      rw [if_pos (by decide)]
      rw [if_neg (by rintro ⟨_, h2⟩; exact hv h2)]
      rw [if_pos ⟨by decide, by decide⟩]
      have hdata : (removeSpaces (("0" : String) ++ ⟨[Nat.digitChar d.val]⟩)) =
          ⟨['0', Nat.digitChar d.val]⟩ := by
        show String.mk _ = String.mk _
        congr 1
        show (("0" : String) ++ ⟨[Nat.digitChar d.val]⟩).data.filter _ = _
        rw [String.data_append]
        have : (("0" : String).data ++ [Nat.digitChar d.val]) = ['0', Nat.digitChar d.val] := rfl
        rw [this]
        apply List.filter_eq_self.mpr
        intro c hc
        simp only [List.mem_cons, List.not_mem_nil, or_false] at hc
        rcases hc with rfl | rfl
        · decide
        · simp [isDigit_not_whitespace (digitChar_isDigit d.isLt)]
      rw [hdata]
      have hparse : jsNumber ⟨['0', Nat.digitChar d.val]⟩ =
          .fin (Frac.ofInt (natOfDigits ['0', Nat.digitChar d.val])) :=
        jsNumber_digits (by simp) (by
          rw [allDigits, List.all_eq_true]
          intro c hc
          simp only [List.mem_cons, List.not_mem_nil, or_false] at hc
          rcases hc with rfl | rfl
          · decide
          · exact digitChar_isDigit d.isLt)
      have hval : natOfDigits ['0', Nat.digitChar d.val] = d.val := by
        show 10 * (10 * 0 + ('0'.toNat - 48)) + ((Nat.digitChar d.val).toNat - 48) = d.val
        rw [digitChar_toNat d.isLt]
        have h0 : '0'.toNat - 48 = 0 := by decide
        rw [h0]
        omega
      rw [hparse, hval, jsNumToString_ofNat, natBaseChars_single d.isLt]
      rfl
    · have hhead : (t ++ [d]).head? = t.head? := by
        cases t with
        | nil => exact absurd rfl htne
        | cons a b => simp
      have hh' : ∀ e, t.head? = some e → e.val ≠ 0 :=
        fun e he => hh e (by rw [hhead]; exact he)
      have hlent : t.length ≤ 16 := by
        have := hlen
        simp only [List.length_append, List.length_cons, List.length_nil] at this
        omega
      have ihr := ih htne hh' hlent
      have hrun : run ((t ++ [d]).map Btn.digit) =
          press (Btn.digit d) (run (t.map Btn.digit)) := by
        rw [List.map_append, run, run, List.foldl_append]
        rfl
      rw [hrun, ihr]
      have hlen15 : (digitChars t).length < 16 := by
        rw [digitChars, List.length_map]
        have := hlen
        simp only [List.length_append, List.length_cons, List.length_nil] at this
        omega
      rw [press_digit_on_digits (by simp [digitChars, htne]) (allDigits_digitChars t)
        hlen15 d [] false "0"]
      have hkey : natBaseChars 10 (natOfDigits (digitChars t ++ [Nat.digitChar d.val])) =
          digitChars (t ++ [d]) := by
        have h1 : digitChars t ++ [Nat.digitChar d.val] = digitChars (t ++ [d]) := by
          simp [digitChars]
        rw [h1, natOfDigits_digitChars]
        exact natBaseChars_digitsVal (by simp) (fun e he => hh e he)
      rw [hkey]

/-! ### Claim theorems -/

/-- C3: the button sequence `5 + 3 × 2 =` evaluates left to right with no
operator precedence: pressing `×` folds the pending `5 + 3` into the
accumulated result `8`, and equals then yields `16`, not `11`. -/
theorem claim_c3_no_precedence :
    (run [Btn.digit 5, Btn.opAdd, Btn.digit 3, Btn.opMul]).calcState.res = JVal.str "8" ∧
    (run [Btn.digit 5, Btn.opAdd, Btn.digit 3, Btn.opMul, Btn.digit 2,
      Btn.eqBtn]).calcState.res = JVal.str "16" ∧
    (run [Btn.digit 5, Btn.opAdd, Btn.digit 3, Btn.opMul, Btn.digit 2,
      Btn.eqBtn]).calcState.res ≠ JVal.str "11" := by
  refine ⟨?_, ?_, ?_⟩ <;> decide

/-- C4 counterexample: pressing `0` then `5` yields the operand `"5"`; the
leading zero is dropped, so the operand is not the literal concatenation
`"05"` of the pressed digits. -/
theorem claim_c4_counterexample :
    removeSpaces ((run [Btn.digit 0, Btn.digit 5]).calcState.num.toStr) ≠ "05" ∧
    removeSpaces ((run [Btn.digit 0, Btn.digit 5]).calcState.num.toStr) = "5" := by
  refine ⟨?_, ?_⟩ <;> decide

/-- C4 (amended): for every sequence of at most 16 digit presses from the
initial state whose first digit is nonzero and whose numeric value is below
`2 ^ 53` (the bound up to which binary64 integer arithmetic — and hence this
exact model — matches JavaScript), the operand stripped of thousands
separators is the literal concatenation of the pressed digits. -/
theorem claim_c4_amended (l : List (Fin 10)) (hne : l ≠ [])
    (hh : ∀ e, l.head? = some e → e.val ≠ 0) (hlen : l.length ≤ 16)
    (hexact : digitsVal l < 2 ^ 53) :
    removeSpaces ((run (l.map Btn.digit)).calcState.num.toStr) = ⟨digitChars l⟩ := by
  rw [run_digits l hne hh hlen]
  show removeSpaces (toLocaleString ⟨digitChars l⟩) = _
  exact removeSpaces_toLocaleString _
    (fun c hc => isDigit_not_whitespace ((List.all_eq_true.mp (allDigits_digitChars l)) c hc))

/-- Witness for C4 (amended) at the sequence `1 2 3 4`. -/
theorem claim_c4_amended_witness :
    (([1, 2, 3, 4] : List (Fin 10)) ≠ [] ∧
      (∀ e, ([1, 2, 3, 4] : List (Fin 10)).head? = some e → e.val ≠ 0) ∧
      ([1, 2, 3, 4] : List (Fin 10)).length ≤ 16 ∧
      digitsVal [1, 2, 3, 4] < 2 ^ 53) ∧
    removeSpaces ((run (([1, 2, 3, 4] : List (Fin 10)).map Btn.digit)).calcState.num.toStr) =
      "1234" := by
  refine ⟨⟨by decide, by decide, by decide, by decide⟩, ?_⟩
  rw [claim_c4_amended [1, 2, 3, 4] (by decide) (by decide) (by decide) (by decide)]
  decide

/-- C6: formatting and separator stripping are a strictly invertible pair on
whitespace-free operand strings: `removeSpaces (toLocaleString x) = x`. -/
theorem claim_c6_format_roundtrip (s : String) (h : ∀ c ∈ s.data, c.isWhitespace = false) :
    removeSpaces (toLocaleString s) = s :=
  removeSpaces_toLocaleString s h

/-- Witness for C6 at `"1234567"` (whose formatted rendering `"1 234 567"`
does contain separators). -/
theorem claim_c6_format_roundtrip_witness :
    (∀ c ∈ ("1234567" : String).data, c.isWhitespace = false) ∧
    toLocaleString "1234567" = "1 234 567" ∧
    removeSpaces (toLocaleString "1234567") = "1234567" :=
  ⟨by decide, by decide, claim_c6_format_roundtrip "1234567" (by decide)⟩

/-! ### Character-level facts about printed numbers -/

theorem mem_trimZerosRight {c : Char} {l : List Char} (h : c ∈ trimZerosRight l) : c ∈ l := by
  rw [trimZerosRight, List.mem_reverse] at h
  have := (List.dropWhile_sublist _).subset h
  rwa [List.mem_reverse] at this

theorem mem_padZerosTo {c : Char} {k : Nat} {l : List Char} (h : c ∈ padZerosTo k l) :
    c = '0' ∨ c ∈ l := by
  rw [padZerosTo, List.mem_append] at h
  rcases h with h | h
  · exact Or.inl (List.eq_of_mem_replicate h)
  · exact Or.inr h

theorem fracPart_digits (x : Frac) (k : Nat) :
    ∀ c ∈ fracPart x k, c.isDigit = true := by
  intro c hc
  rw [fracPart] at hc
  split at hc
  · simp at hc
  · rcases mem_padZerosTo (mem_trimZerosRight hc) with rfl | h
    · decide
    · exact natBaseChars_isDigit _ h

theorem fracDecExact_chars (x : Frac) (k : Nat) :
    ∀ c ∈ fracDecExact x k, c.isDigit = true ∨ c = '.' := by
  intro c hc
  simp only [fracDecExact] at hc
  rw [List.mem_append] at hc
  rcases hc with hc | hc
  · exact Or.inl (natBaseChars_isDigit _ hc)
  · split at hc
    · simp at hc
    · rcases List.mem_cons.mp hc with rfl | hc
      · exact Or.inr rfl
      · exact Or.inl (fracPart_digits x k c hc)

theorem fracDecFallback_chars (x : Frac) :
    ∀ c ∈ fracDecFallback x, c.isDigit = true ∨ c = '.' := by
  intro c hc
  simp only [fracDecFallback] at hc
  rw [List.mem_append] at hc
  rcases hc with hc | hc
  · exact Or.inl (natBaseChars_isDigit _ hc)
  · rcases List.mem_cons.mp hc with rfl | hc
    · exact Or.inr rfl
    · rcases mem_padZerosTo hc with rfl | hc
      · exact Or.inl (by decide)
      · exact Or.inl (natBaseChars_isDigit _ hc)

theorem fracDecChars_chars (x : Frac) :
    ∀ c ∈ fracDecChars x, c.isDigit = true ∨ c = '.' := by
  intro c hc
  rw [fracDecChars] at hc
  split at hc
  · exact fracDecExact_chars _ _ c hc
  · exact fracDecFallback_chars _ c hc

/-- Every character of a printed JS number is a digit or one of the few
punctuation/letter characters of `"-"`, `"."`, `"NaN"`, `"Infinity"`. -/
theorem jsNumToString_chars (v : JsNum) :
    ∀ c ∈ (jsNumToString v).data,
      c.isDigit = true ∨ c ∈ ['-', '.', 'N', 'a', 'I', 'n', 'f', 'i', 't', 'y'] := by
  intro c hc
  cases v with
  | nan =>
    have H : ∀ e ∈ ("NaN" : String).data, e.isDigit = true ∨ e ∈ ['-', '.', 'N', 'a', 'I', 'n', 'f', 'i', 't', 'y'] := by decide
    exact H c hc
  | inf b =>
    cases b with
    | true =>
      have H : ∀ e ∈ ("-Infinity" : String).data, e.isDigit = true ∨ e ∈ ['-', '.', 'N', 'a', 'I', 'n', 'f', 'i', 't', 'y'] := by decide
      exact H c hc
    | false =>
      have H : ∀ e ∈ ("Infinity" : String).data, e.isDigit = true ∨ e ∈ ['-', '.', 'N', 'a', 'I', 'n', 'f', 'i', 't', 'y'] := by decide
      exact H c hc
  | fin x =>
    rw [jsNumToString] at hc
    by_cases hz : x.isZero = true
    · rw [if_pos hz] at hc
      have H : ∀ e ∈ ("0" : String).data, e.isDigit = true ∨ e ∈ ['-', '.', 'N', 'a', 'I', 'n', 'f', 'i', 't', 'y'] := by decide
      exact H c hc
    · rw [if_neg hz] at hc
      by_cases hn : x.isNeg = true
      · rw [if_pos hn] at hc
        rcases List.mem_cons.mp hc with rfl | hc
        · right; decide
        · rcases fracDecChars_chars x c hc with h | rfl
          · exact Or.inl h
          · right; decide
      · rw [if_neg hn] at hc
        rcases fracDecChars_chars x c hc with h | rfl
        · exact Or.inl h
        · right; decide

theorem count_dot_eq_zero_of_digits {l : List Char}
    (h : ∀ c ∈ l, c.isDigit = true) : l.count '.' = 0 := by
  rw [List.count_eq_zero]
  intro hmem
  have := h '.' hmem
  simp at this

theorem fracDecChars_count_dot (x : Frac) : (fracDecChars x).count '.' ≤ 1 := by
  rw [fracDecChars]
  split
  · next k _ =>
    simp only [fracDecExact, List.count_append]
    rw [count_dot_eq_zero_of_digits (fun c hc => natBaseChars_isDigit c hc)]
    split
    · simp
    · rw [List.count_cons, count_dot_eq_zero_of_digits (fracPart_digits x k)]
      simp
  · simp only [fracDecFallback, List.count_append]
    rw [count_dot_eq_zero_of_digits (fun c hc => natBaseChars_isDigit c hc)]
    rw [List.count_cons]
    have hz : List.count '.' (padZerosTo 17
        (natBaseChars 10 (x.n.natAbs % x.d * 10 ^ 17 / x.d))) = 0 := by
      rw [List.count_eq_zero]
      intro hmem
      rcases mem_padZerosTo hmem with h | h
      · exact absurd h (by decide)
      · have := natBaseChars_isDigit _ h
        simp at this
    rw [hz]
    simp

theorem jsNumToString_count_dot (v : JsNum) : (jsNumToString v).data.count '.' ≤ 1 := by
  cases v with
  | nan => decide
  | inf b => cases b <;> decide
  | fin x =>
    rw [jsNumToString]
    by_cases hz : x.isZero = true
    · rw [if_pos hz]; decide
    · rw [if_neg hz]
      by_cases hn : x.isNeg = true
      · rw [if_pos hn]
        show List.count '.' ('-' :: fracDecChars x) ≤ 1
        rw [List.count_cons]
        have := fracDecChars_count_dot x
        simp
        omega
      · rw [if_neg hn]
        exact fracDecChars_count_dot x

theorem fracDecChars_ne_nil (x : Frac) : fracDecChars x ≠ [] := by
  rw [fracDecChars]
  split
  · simp only [fracDecExact]
    intro h
    exact natBaseChars_ne_nil (List.append_eq_nil.mp h).1
  · simp only [fracDecFallback]
    intro h
    exact natBaseChars_ne_nil (List.append_eq_nil.mp h).1

theorem jsNumToString_data_ne_nil (v : JsNum) : (jsNumToString v).data ≠ [] := by
  cases v with
  | nan => decide
  | inf b => cases b <;> decide
  | fin x =>
    rw [jsNumToString]
    by_cases hz : x.isZero = true
    · rw [if_pos hz]; decide
    · rw [if_neg hz]
      by_cases hn : x.isNeg = true
      · rw [if_pos hn]; simp
      · rw [if_neg hn]
        exact fracDecChars_ne_nil x

theorem err_char_not_in_jsNumToString (v : JsNum) : '不' ∉ (jsNumToString v).data := by
  intro h
  rcases jsNumToString_chars v '不' h with h' | h'
  · exact absurd h' (by decide)
  · exact absurd h' (by decide)

/-- The three well-formedness facts about any formatted number string that the
state invariants track: no error-message character, at most one dot, and
nonemptiness. -/
theorem toLocale_jsNumToString_good (v : JsNum) :
    '不' ∉ (toLocaleString (jsNumToString v)).data ∧
    (toLocaleString (jsNumToString v)).data.count '.' ≤ 1 ∧
    toLocaleString (jsNumToString v) ≠ "" := by
  refine ⟨?_, ?_, ?_⟩
  · intro h
    rcases fmtGo_mem h with h' | h'
    · exact err_char_not_in_jsNumToString v h'
    · exact absurd h' (by decide)
  · show (fmtGo false (jsNumToString v).data).count '.' ≤ 1
    rw [fmtGo_count_dot]
    exact jsNumToString_count_dot v
  · intro h
    have hd := congrArg String.data h
    exact fmtGo_ne_nil (jsNumToString_data_ne_nil v) hd

theorem toLocale_jsNumToString_ne_err (v : JsNum) :
    toLocaleString (jsNumToString v) ≠ zeroDivisionError := by
  intro h
  have hmem : '不' ∈ (toLocaleString (jsNumToString v)).data := by
    rw [h]
    decide
  exact (toLocale_jsNumToString_good v).1 hmem

/-! ### State invariants -/

/-- Well-formedness of an operand string tracked across all transitions: it
never contains the error-message character `'不'`, holds at most one decimal
point, and is nonempty. -/
def GoodStr (s : String) : Prop :=
  '不' ∉ s.data ∧ s.data.count '.' ≤ 1 ∧ s ≠ ""

/-- The inductive machine invariant: whenever the division-by-zero sentinel
is displayed the operator is cleared and the operand is the number `0`, and
the operand is always a well-formed string. -/
def GoodState (m : Machine) : Prop :=
  (m.calcState.res = JVal.str zeroDivisionError →
    m.calcState.sign = "" ∧ m.calcState.num = JVal.n0) ∧
  GoodStr m.calcState.num.toStr

theorem goodStr_toLocale {l : List Char} (h1 : '不' ∉ l) (h2 : l.count '.' ≤ 1)
    (h3 : l ≠ []) : GoodStr (toLocaleString ⟨l⟩) := by
  refine ⟨?_, ?_, ?_⟩
  · intro hm
    rcases fmtGo_mem hm with hm | hm
    · exact h1 hm
    · exact absurd hm (by decide)
  · show (fmtGo false l).count '.' ≤ 1
    rw [fmtGo_count_dot]
    exact h2
  · intro he
    exact fmtGo_ne_nil h3 (congrArg String.data he)

theorem goodStr_toLocale_jsNum (v : JsNum) : GoodStr (toLocaleString (jsNumToString v)) :=
  toLocale_jsNumToString_good v

theorem goodStr_zeroStr : GoodStr "0" := by
  refine ⟨by decide, by decide, by decide⟩

theorem goodStr_n0 : GoodStr (JVal.n0.toStr) := goodStr_zeroStr

theorem goodStr_ne_err {s : String} (h : GoodStr s) : s ≠ zeroDivisionError := by
  intro he
  exact h.1 (by rw [he]; decide)

theorem jval_ne_err_of_goodStr {v : JVal} (h : GoodStr v.toStr) :
    v ≠ JVal.str zeroDivisionError := by
  intro he
  rw [he] at h
  exact goodStr_ne_err h rfl

theorem hasDot_false_count {s : String} (h : hasDot s = false) : s.data.count '.' = 0 := by
  rw [List.count_eq_zero]
  intro hmem
  rw [hasDot, List.any_eq_false] at h
  have := h '.' hmem
  simp at this

theorem goodState_reset (m : Machine) : GoodState (resetClickHandler m) := by
  exact ⟨fun h => absurd h (by simp [resetClickHandler]), goodStr_n0⟩

theorem goodStr_append_digit {s : String} (hs : GoodStr s) {c : Char}
    (hc : c.isDigit = true) : GoodStr (toLocaleString (s ++ ⟨[c]⟩)) := by
  obtain ⟨h1, h2, h3⟩ := hs
  have heq : (s ++ (⟨[c]⟩ : String)) = ⟨s.data ++ [c]⟩ :=
    String.ext (by rw [String.data_append])
  rw [heq]
  apply goodStr_toLocale
  · intro hm
    rcases List.mem_append.mp hm with hm | hm
    · exact h1 hm
    · simp only [List.mem_singleton] at hm
      rw [← hm] at hc
      exact absurd hc (by decide)
  · rw [List.count_append]
    have hz : List.count '.' [c] = 0 := by
      rw [List.count_eq_zero]
      intro hmem
      simp only [List.mem_singleton] at hmem
      rw [← hmem] at hc
      exact absurd hc (by decide)
    rw [hz]
    simpa using h2
  · simp

theorem goodState_numClick (d : Fin 10) (m : Machine) (hg : GoodState m)
    (hres : m.calcState.res ≠ JVal.str zeroDivisionError) :
    GoodState (numClickHandler d m) := by
  obtain ⟨h1, hgood⟩ := hg
  rw [numClickHandler]
  split
  · constructor
    · intro hre
      exfalso
      dsimp only at hre
      revert hre
      split
      · intro hre; exact JVal.noConfusion hre
      · intro hre; exact hres hre
    · show GoodStr (JVal.str _).toStr
      split
      · exact goodStr_zeroStr
      · split
        · exact goodStr_toLocale_jsNum _
        · exact goodStr_append_digit hgood (digitChar_isDigit d.isLt)
  · exact ⟨h1, hgood⟩

theorem goodState_comaClick (m : Machine) (hg : GoodState m)
    (hres : m.calcState.res ≠ JVal.str zeroDivisionError) :
    GoodState (comaClickHandler m) := by
  obtain ⟨h1, hgood⟩ := hg
  rw [comaClickHandler]
  constructor
  · intro hre
    exact absurd hre hres
  · show GoodStr (if _ then JVal.str _ else _).toStr
    split
    · next hnd =>
      show GoodStr (JVal.str _).toStr
      obtain ⟨hg1, hg2, hg3⟩ := hgood
      have hdot : hasDot m.calcState.num.toStr = false := by
        revert hnd
        cases hasDot m.calcState.num.toStr <;> simp
      have heq : (m.calcState.num.toStr ++ ("." : String)) =
          (⟨m.calcState.num.toStr.data ++ ['.']⟩ : String) :=
        String.ext (by rw [String.data_append])
      show GoodStr (m.calcState.num.toStr ++ ("." : String))
      rw [heq]
      refine ⟨?_, ?_, ?_⟩
      · intro hm
        rcases List.mem_append.mp hm with hm | hm
        · exact hg1 hm
        · exact absurd hm (by decide)
      · rw [List.count_append, hasDot_false_count hdot]
        decide
      · intro he
        have := congrArg String.data he
        simp at this
    · exact hgood

theorem goodState_signClick (sgn : String) (m : Machine) (hg : GoodState m)
    (hres : m.calcState.res ≠ JVal.str zeroDivisionError) :
    GoodState (signClickHandler sgn m) := by
  obtain ⟨h1, hgood⟩ := hg
  rw [signClickHandler]
  split
  · constructor
    · intro hre
      exfalso
      dsimp only at hre
      have := JVal.str.inj hre
      exact toLocale_jsNumToString_ne_err _ this
    · exact goodStr_n0
  · constructor
    · intro hre
      exfalso
      dsimp only at hre
      revert hre
      split
      · intro hre
        exact jval_ne_err_of_goodStr hgood hre
      · intro hre
        exact hres hre
    · exact goodStr_n0

theorem goodState_equalsClick (m : Machine) (hg : GoodState m) :
    GoodState (equalsClickHandler m) := by
  obtain ⟨h1, hgood⟩ := hg
  rw [equalsClickHandler]
  split
  · exact ⟨fun _ => ⟨rfl, rfl⟩, goodStr_n0⟩
  · exact ⟨h1, hgood⟩

theorem goodState_invertClick (m : Machine) (hg : GoodState m) :
    GoodState (invertClickHandler m) := by
  obtain ⟨h1, hgood⟩ := hg
  rw [invertClickHandler]
  constructor
  · intro hre
    exfalso
    dsimp only at hre
    revert hre
    split
    · intro hre
      exact toLocale_jsNumToString_ne_err _ (JVal.str.inj hre)
    · intro hre
      exact JVal.noConfusion hre
  · dsimp only
    split
    · exact goodStr_toLocale_jsNum _
    · exact goodStr_n0

theorem goodState_backspaceClick (m : Machine) (hg : GoodState m) :
    GoodState (backspaceClickHandler m) := by
  obtain ⟨h1, hgood⟩ := hg
  rw [backspaceClickHandler]
  split
  · next hguard =>
    constructor
    · intro hre
      exact absurd (h1 hre).2 hguard.2
    · dsimp only
      split
      · exact goodStr_n0
      · next hlen =>
        show GoodStr (toLocaleString _)
        obtain ⟨hg1, hg2, hg3⟩ := hgood
        apply goodStr_toLocale
        · intro hm
          have hm2 := List.dropLast_sublist _ |>.subset hm
          have hm3 := List.filter_sublist _ |>.subset hm2
          exact hg1 hm3
        · calc ((removeSpaces m.calcState.num.toStr).data.dropLast).count '.'
              ≤ (removeSpaces m.calcState.num.toStr).data.count '.' :=
                (List.dropLast_sublist _).count_le _
            _ ≤ m.calcState.num.toStr.data.count '.' :=
                (List.filter_sublist _).count_le _
            _ ≤ 1 := hg2
        · intro he
          apply hlen
          show (⟨(removeSpaces m.calcState.num.toStr).data.dropLast⟩ : String).length = 0
          rw [he]
          rfl
  · exact ⟨h1, hgood⟩

theorem goodState_initMachine : GoodState initMachine :=
  ⟨fun h => absurd h (by simp [initMachine]), goodStr_n0⟩

theorem goodState_press (b : Btn) (m : Machine) (hg : GoodState m) :
    GoodState (press b m) := by
  rw [press.eq_def]
  split
  · exact goodState_reset m
  · next hni =>
    have hres : b ≠ Btn.acBtn → m.calcState.res ≠ JVal.str zeroDivisionError :=
      fun hb hr => hni ⟨hr, hb⟩
    cases b with
    | acBtn => exact goodState_reset m
    | invBtn => exact goodState_invertClick m hg
    | bkspBtn => exact goodState_backspaceClick m hg
    | eqBtn => exact goodState_equalsClick m hg
    | opDiv => exact goodState_signClick _ m hg (hres (fun h => Btn.noConfusion h))
    | opMul => exact goodState_signClick _ m hg (hres (fun h => Btn.noConfusion h))
    | opSub => exact goodState_signClick _ m hg (hres (fun h => Btn.noConfusion h))
    | opAdd => exact goodState_signClick _ m hg (hres (fun h => Btn.noConfusion h))
    | dot => exact goodState_comaClick m hg (hres (fun h => Btn.noConfusion h))
    | digit d => exact goodState_numClick d m hg (hres (fun h => Btn.noConfusion h))
    | hexBtn => exact hg

/-- Invariance along any button sequence: a property holding initially and
preserved by `press` holds at every reachable state. -/
theorem reachable_inv (P : Machine → Prop) (h0 : P initMachine)
    (hstep : ∀ m b, P m → P (press b m)) : ∀ m, Reachable m → P m := by
  have H : ∀ (l : List Btn) (m0 : Machine), P m0 →
      P (l.foldl (fun m b => press b m) m0) := by
    intro l
    induction l with
    | nil => intro m0 h; exact h
    | cons b t ih => intro m0 h; exact ih _ (hstep m0 b h)
  rintro m ⟨l, rfl⟩
  exact H l initMachine h0

theorem goodState_reachable {m : Machine} (h : Reachable m) : GoodState m :=
  reachable_inv GoodState goodState_initMachine (fun m b => goodState_press b m) m h

/-- C1: from every reachable state with pending operator `"÷"` and operand
exactly the string `"0"`, equals produces the division-by-zero sentinel (a
string, not a number) and appends nothing to the history. -/
theorem claim_c1_divide_by_zero (m : Machine) (hr : Reachable m)
    (hsign : m.calcState.sign = "÷") (hnum : m.calcState.num = JVal.str "0") :
    (press Btn.eqBtn m).calcState.res = JVal.str zeroDivisionError ∧
    (press Btn.eqBtn m).history = m.history := by
  have hres : m.calcState.res ≠ JVal.str zeroDivisionError := by
    intro he
    have hs := ((goodState_reachable hr).1 he).1
    rw [hsign] at hs
    exact absurd hs (by decide)
  rw [press.eq_def, if_neg (by rintro ⟨hh, _⟩; exact hres hh)]
  show (equalsClickHandler m).calcState.res = _ ∧ (equalsClickHandler m).history = _
  rw [equalsClickHandler]
  rw [if_pos ⟨by rw [hsign]; decide, by rw [hnum]; decide⟩]
  dsimp only
  rw [if_pos ⟨hnum, hsign⟩]
  refine ⟨rfl, ?_⟩
  rw [if_neg (by simp)]

/-- Witness for C1: the concrete button sequence `6 ÷ 0 =` shows the error
display and leaves the history empty. -/
theorem claim_c1_divide_by_zero_witness :
    (press Btn.eqBtn (run [Btn.digit 6, Btn.opDiv, Btn.digit 0])).calcState.res =
      JVal.str zeroDivisionError ∧
    (press Btn.eqBtn (run [Btn.digit 6, Btn.opDiv, Btn.digit 0])).history = [] := by
  have h := claim_c1_divide_by_zero (run [Btn.digit 6, Btn.opDiv, Btn.digit 0])
    ⟨[Btn.digit 6, Btn.opDiv, Btn.digit 0], rfl⟩ (by decide) (by decide)
  exact ⟨h.1, h.2.trans (by decide)⟩

/-- C2 counterexample: pressing the digit `5` in the error state reached by
`6 ÷ 0 =` yields exactly the initial machine — the digit is swallowed — while
pressing `5` on a fresh Idle state does not; so the state after the error
press is not the state obtained by pressing the digit from Idle. -/
theorem claim_c2_counterexample :
    press (Btn.digit 5) (run [Btn.digit 6, Btn.opDiv, Btn.digit 0, Btn.eqBtn]) =
      initMachine ∧
    press (Btn.digit 5) initMachine ≠ initMachine := by
  refine ⟨?_, ?_⟩ <;> decide

/-- C2 (amended): every press other than AC made in the error state resets
the calculation state to the all-zero Idle state and is otherwise ignored
(in particular a digit press is swallowed, not replayed); history and the
hex-peek state are untouched. -/
theorem claim_c2_amended (m : Machine) (b : Btn)
    (herr : m.calcState.res = JVal.str zeroDivisionError) (hb : b ≠ Btn.acBtn) :
    press b m = { m with calcState := { sign := "", num := JVal.n0, res := JVal.n0 } } := by
  rw [press.eq_def, if_pos ⟨herr, hb⟩]
  rfl

/-- Witness for C2 (amended) at the reachable error state and the `+` key. -/
theorem claim_c2_amended_witness :
    ((run [Btn.digit 6, Btn.opDiv, Btn.digit 0, Btn.eqBtn]).calcState.res =
        JVal.str zeroDivisionError ∧ Btn.opAdd ≠ Btn.acBtn) ∧
    press Btn.opAdd (run [Btn.digit 6, Btn.opDiv, Btn.digit 0, Btn.eqBtn]) =
      { run [Btn.digit 6, Btn.opDiv, Btn.digit 0, Btn.eqBtn] with
          calcState := { sign := "", num := JVal.n0, res := JVal.n0 } } :=
  ⟨⟨by decide, by decide⟩, claim_c2_amended _ _ (by decide) (by decide)⟩

/-- C7: the hex-peek press never alters `calc` or `history`; it renders the
truncated integer of the active value as `"0x"` plus uppercase hexadecimal;
the release restores the prior (decimal-view) primary display with the
calculation state identical to the state before the press. -/
theorem claim_c7_hex_peek (m : Machine) (h : m.isHexView = false) :
    (hexPressHandler m).calcState = m.calcState ∧
    (hexPressHandler m).history = m.history ∧
    (hexPressHandler m).hexDisplay =
      "0x" ++ upperStr (jsHexString (jsTrunc (jsNumber (removeSpaces
        (if m.calcState.num.truthy then m.calcState.num.toStr
         else m.calcState.res.toStr))))) ∧
    (hexReleaseHandler (hexPressHandler m)).calcState = m.calcState ∧
    (hexReleaseHandler (hexPressHandler m)).history = m.history ∧
    (hexReleaseHandler (hexPressHandler m)).isHexView = false ∧
    primaryDisplay (hexReleaseHandler (hexPressHandler m)) = primaryDisplay m := by
  refine ⟨rfl, rfl, rfl, rfl, rfl, rfl, ?_⟩
  simp [primaryDisplay, hexReleaseHandler, hexPressHandler, h]

/-- Witness for C7: with operand `255`, the peek displays `"0xFF"` and the
press/release pair leaves the calculation state untouched. -/
theorem claim_c7_hex_peek_witness :
    (hexPressHandler (run [Btn.digit 2, Btn.digit 5, Btn.digit 5])).calcState =
      (run [Btn.digit 2, Btn.digit 5, Btn.digit 5]).calcState ∧
    (hexPressHandler (run [Btn.digit 2, Btn.digit 5, Btn.digit 5])).hexDisplay = "0xFF" ∧
    (hexReleaseHandler (hexPressHandler
      (run [Btn.digit 2, Btn.digit 5, Btn.digit 5]))).calcState =
      (run [Btn.digit 2, Btn.digit 5, Btn.digit 5]).calcState := by
  have h := claim_c7_hex_peek (run [Btn.digit 2, Btn.digit 5, Btn.digit 5]) (by decide)
  refine ⟨h.1, ?_, h.2.2.2.1⟩
  rw [h.2.2.1]
  decide

/-- C8: at every reachable state the operand holds at most one decimal
point, and pressing the decimal key when a decimal point is already present
leaves the machine state unchanged. -/
theorem claim_c8_decimal_invariant (m : Machine) (hr : Reachable m) :
    m.calcState.num.toStr.data.count '.' ≤ 1 ∧
    (hasDot m.calcState.num.toStr = true → press Btn.dot m = m) := by
  have hg := goodState_reachable hr
  refine ⟨hg.2.2.1, ?_⟩
  intro hdot
  have hres : m.calcState.res ≠ JVal.str zeroDivisionError := by
    intro he
    have hnum := (hg.1 he).2
    rw [hnum] at hdot
    exact absurd hdot (by decide)
  rw [press.eq_def, if_neg (by rintro ⟨hh, _⟩; exact hres hh)]
  show comaClickHandler m = m
  rw [comaClickHandler]
  rw [if_neg (not_not_intro hdot)]

/-- Witness for C8 at the reachable state after `1 .`, whose operand `"1."`
contains a decimal point. -/
theorem claim_c8_decimal_invariant_witness :
    (run [Btn.digit 1, Btn.dot]).calcState.num.toStr.data.count '.' ≤ 1 ∧
    hasDot (run [Btn.digit 1, Btn.dot]).calcState.num.toStr = true ∧
    press Btn.dot (run [Btn.digit 1, Btn.dot]) = run [Btn.digit 1, Btn.dot] := by
  have h := claim_c8_decimal_invariant (run [Btn.digit 1, Btn.dot])
    ⟨[Btn.digit 1, Btn.dot], rfl⟩
  exact ⟨h.1, by decide, h.2 (by decide)⟩

/-- C9 counterexample: the sequence `5 +- BKSP` leaves the lone minus sign
`"-"` as the operand — a non-numeric string, contradicting the claimed
well-formedness of `currentOperand` after every transition. -/
theorem claim_c9_counterexample :
    (run [Btn.digit 5, Btn.invBtn, Btn.bkspBtn]).calcState.num = JVal.str "-" := by
  decide

/-- C9 (amended): every button has a defined transition (the transition
function is total) and at every reachable state the operand is either the
number `0` or a nonempty string — but that string need not be numeric, as
the lone `"-"` left by backspacing `"-5"` shows. -/
theorem claim_c9_amended (m : Machine) (hr : Reachable m) :
    m.calcState.num = JVal.n0 ∨ ∃ s, m.calcState.num = JVal.str s ∧ s ≠ "" := by
  have hg := goodState_reachable hr
  cases hnum : m.calcState.num with
  | n0 => exact Or.inl rfl
  | str s =>
    refine Or.inr ⟨s, rfl, ?_⟩
    have hne := hg.2.2.2
    rw [hnum] at hne
    exact hne

/-- Witness for C9 (amended) at the state reached by pressing `5`. -/
theorem claim_c9_amended_witness :
    (run [Btn.digit 5]).calcState.num = JVal.n0 ∨
      ∃ s, (run [Btn.digit 5]).calcState.num = JVal.str s ∧ s ≠ "" :=
  claim_c9_amended _ ⟨[Btn.digit 5], rfl⟩

/-- C10: a digit press with no pending operator zeroes the accumulated
result in the same transition (when the 16-character cap admits the press),
while a digit press with a pending operator leaves the accumulated result
unchanged. -/
theorem claim_c10_digit_res (m : Machine) (d : Fin 10)
    (hres : m.calcState.res ≠ JVal.str zeroDivisionError) :
    (m.calcState.sign ≠ "" → (press (Btn.digit d) m).calcState.res = m.calcState.res) ∧
    (m.calcState.sign = "" → (removeSpaces m.calcState.num.toStr).length < 16 →
      (press (Btn.digit d) m).calcState.res = JVal.n0) := by
  rw [press.eq_def, if_neg (by rintro ⟨hh, _⟩; exact hres hh)]
  show (_ → (numClickHandler d m).calcState.res = _) ∧
    (_ → _ → (numClickHandler d m).calcState.res = _)
  constructor
  · intro hsign
    rw [numClickHandler]
    split
    · simp [hsign]
    · rfl
  · intro hsign hlen
    rw [numClickHandler, if_pos hlen]
    simp [hsign]

/-- Witness for C10: a digit typed at the initial state (no pending
operator) leaves the accumulated result zero. -/
theorem claim_c10_digit_res_witness :
    (initMachine.calcState.res ≠ JVal.str zeroDivisionError ∧
      initMachine.calcState.sign = "" ∧
      (removeSpaces initMachine.calcState.num.toStr).length < 16) ∧
    (press (Btn.digit 7) initMachine).calcState.res = JVal.n0 := by
  refine ⟨⟨by decide, rfl, by decide⟩, ?_⟩
  exact (claim_c10_digit_res initMachine 7 (by decide)).2 rfl (by decide)

end CalcApp
